import Mathlib

/-!
Verification development for the sftpgw SFTP-to-S3 gateway.

The Go source is shallowly embedded over `List Char` (paths, names,
identifiers) and `List Nat` (byte buffers).  Each definition mirrors one
function of the repository; theorems at the end settle the frozen claims.
-/

namespace Sftpgw

/-- The character list of a string literal (embedding boundary helper). -/
def chars (s : String) : List Char := s.data

/-! ## Go `path/filepath` primitives (Unix rules), used by `isPathAllowed`
and `generateS3Key`. -/

/-- Split a path at every '/', like `strings.Split(s, "/")`:
the empty path gives `[[]]`, a leading '/' gives a leading empty piece. -/
def splitOnSlash : List Char → List (List Char)
  | [] => [[]]
  | c :: cs =>
    if c = '/' then [] :: splitOnSlash cs
    else
      match splitOnSlash cs with
      | [] => [[c]]
      | s :: ss => (c :: s) :: ss

/-- Join pieces with '/', like `strings.Join(pieces, "/")`. -/
def joinSlash : List (List Char) → List Char
  | [] => []
  | [s] => s
  | s :: rest => s ++ '/' :: joinSlash rest

/-- `filepath.IsAbs` on Unix: the path starts with '/'. -/
def goIsAbs : List Char → Bool
  | '/' :: _ => true
  | _ => false

/-- One step of `filepath.Clean`'s element processing: push a (nonempty,
non-".") path element onto the reversed output stack.  A ".." pops the
previous element; at the top of a rooted path it is dropped, at the top of
a relative path it is kept. -/
def cleanPush (rooted : Bool) (acc : List (List Char)) (c : List Char) :
    List (List Char) :=
  if c = ['.', '.'] then
    match acc with
    | [] => if rooted then [] else [c]
    | top :: rest => if top = ['.', '.'] then c :: top :: rest else rest
  else c :: acc

/-- `filepath.Clean` (Unix): shortest lexical equivalent of the path. -/
def goClean (p : List Char) : List Char :=
  let rooted := goIsAbs p
  let comps := (splitOnSlash p).filter (fun c => ¬ (c = [] ∨ c = ['.']))
  let segs := (comps.foldl (cleanPush rooted) []).reverse
  if rooted then '/' :: joinSlash segs
  else if segs = [] then ['.'] else joinSlash segs

/-- Strip the common leading segments of two segment lists, as
`filepath.Rel`'s scan does before it counts the remaining elements. -/
def dropCommonSegs :
    List (List Char) → List (List Char) → List (List Char) × List (List Char)
  | a :: as, b :: bs =>
    if a = b then dropCommonSegs as bs else (a :: as, b :: bs)
  | as, bs => (as, bs)

/-- The first remaining base element is "..": `filepath.Rel`'s error case. -/
def headIsDotDot : List (List Char) → Bool
  | b :: _ => b = ['.', '.']
  | [] => false

/-- `filepath.Rel` (Unix, volume names empty): the path from `basepath` to
`targpath`, or `none` for the error cases (mixed absolute/relative paths,
a ".." element left in the base). -/
def goRel (basepath targpath : List Char) : Option (List Char) :=
  let base := goClean basepath
  let targ := goClean targpath
  if targ = base then some ['.']
  else
    let base := if base = ['.'] then [] else base
    if goIsAbs base ≠ goIsAbs targ then none
    else
      let rem := dropCommonSegs (splitOnSlash base) (splitOnSlash targ)
      if headIsDotDot rem.1 then none
      else if joinSlash rem.1 ≠ [] then
        let dots := joinSlash (List.replicate rem.1.length ['.', '.'])
        some (if joinSlash rem.2 = [] then dots
              else dots ++ '/' :: joinSlash rem.2)
      else some (joinSlash rem.2)

/-- `SFTPHandler.isPathAllowed`: clean the path, force it absolute, and
allow it iff the path relative to the virtual root does not begin
with "..". -/
def isPathAllowed (virtualDir path : List Char) : Bool :=
  let cleanPath := goClean path
  let cleanPath := if ¬ goIsAbs cleanPath then '/' :: cleanPath else cleanPath
  match goRel virtualDir cleanPath with
  | none => false
  | some relPath => ¬ List.isPrefixOf ['.', '.'] relPath

/-! Sanity checks: the rows of the repository's own unit-test table for
`isPathAllowed` (sftp handler tests). -/

example : goClean (chars "/uploads/../etc") = chars "/etc" := by decide
example : goClean (chars "") = chars "." := by decide
example : goRel (chars "/uploads") (chars "/uploads/file.txt") =
    some (chars "file.txt") := by decide

example : isPathAllowed (chars "/uploads") (chars "/uploads/file.txt") = true := by decide
example : isPathAllowed (chars "/uploads") (chars "/uploads/subfolder/file.txt") = true := by
  decide
example : isPathAllowed (chars "/uploads") (chars "/uploads") = true := by decide
example : isPathAllowed (chars "/uploads") (chars "/uploads/../etc/passwd") = false := by
  decide
example : isPathAllowed (chars "/uploads") (chars "/etc/passwd") = false := by decide
example : isPathAllowed (chars "/uploads") (chars "/uploads/../../etc/passwd") = false := by
  decide
example : isPathAllowed (chars "/uploads") (chars "/") = false := by decide
example : isPathAllowed (chars "/uploads") (chars "") = false := by decide
example : isPathAllowed (chars "/uploads") (chars "/uploads/my..file.txt") = true := by decide
example : isPathAllowed (chars "/uploads") (chars "/uploads_other/file.txt") = false := by
  decide
example : isPathAllowed (chars "/custom/upload/path") (chars "/custom/upload/path/file.txt")
    = true := by decide
example : isPathAllowed (chars "/custom/upload/path") (chars "/custom/upload/other/file.txt")
    = false := by decide
example : isPathAllowed (chars "/custom/upload/path") (chars "/uploads/file.txt") = false := by
  decide

/-! ## Where a path resolves

`isPathAllowed` first cleans the request path and forces it absolute; the
absolute cleaned form is what the path *resolves to*.  A path resolves
inside the root when the root's path elements are a leading run of the
resolved path's elements. -/

/-- The absolute cleaned form of a request path: exactly the value
`isPathAllowed` hands to `filepath.Rel` (after `Rel`'s own cleaning). -/
def resolvedPath (path : List Char) : List Char :=
  let cleanPath := goClean path
  let cleanPath := if ¬ goIsAbs cleanPath then '/' :: cleanPath else cleanPath
  goClean cleanPath

/-- The nonempty '/'-separated elements of a path. -/
def cleanSegs (p : List Char) : List (List Char) :=
  (splitOnSlash p).filter (fun s => ¬ s = [])

/-- The request path resolves to the root or below it. -/
def resolvesInside (root path : List Char) : Bool :=
  (cleanSegs root).isPrefixOf (cleanSegs (resolvedPath path))

example : resolvesInside (chars "/uploads") (chars "/uploads/a/b.txt") = true := by decide
example : resolvesInside (chars "/uploads") (chars "/uploads/../etc") = false := by decide
example : resolvesInside (chars "/uploads") (chars "/uploadsfoo") = false := by decide

/-! ## Structural lemmas about the path primitives -/

theorem splitOnSlash_ne_nil (p : List Char) : splitOnSlash p ≠ [] := by
  cases p with
  | nil => simp [splitOnSlash]
  | cons c cs =>
    simp only [splitOnSlash]
    split
    · simp
    · cases h : splitOnSlash cs <;> simp

theorem joinSlash_splitOnSlash (p : List Char) : joinSlash (splitOnSlash p) = p := by
  induction p with
  | nil => rfl
  | cons c cs ih =>
    simp only [splitOnSlash]
    split
    · rename_i hc
      subst hc
      cases h : splitOnSlash cs with
      | nil => exact absurd h (splitOnSlash_ne_nil cs)
      | cons s ss =>
        rw [h] at ih
        cases ss with
        | nil => simpa [joinSlash] using congrArg (List.cons '/') ih
        | cons t ts => simpa [joinSlash] using congrArg (List.cons '/') ih
    · cases h : splitOnSlash cs with
      | nil => exact absurd h (splitOnSlash_ne_nil cs)
      | cons s ss =>
        rw [h] at ih
        cases ss with
        | nil => simpa [joinSlash] using congrArg (List.cons c) ih
        | cons t ts => simpa [joinSlash] using congrArg (List.cons c) ih

theorem dropCommonSegs_decomp (as bs : List (List Char)) :
    ∃ com, as = com ++ (dropCommonSegs as bs).1 ∧ bs = com ++ (dropCommonSegs as bs).2 := by
  induction as generalizing bs with
  | nil => exact ⟨[], by simp [dropCommonSegs]⟩
  | cons a as ih =>
    cases bs with
    | nil => exact ⟨[], by simp [dropCommonSegs]⟩
    | cons b bs =>
      by_cases hab : a = b
      · obtain ⟨com, h1, h2⟩ := ih bs
        subst hab
        refine ⟨a :: com, ?_, ?_⟩
        · simp [dropCommonSegs, ← h1]
        · simp [dropCommonSegs, ← h2]
      · exact ⟨[], by simp [dropCommonSegs, hab]⟩

theorem joinSlash_eq_nil {l : List (List Char)} (h : joinSlash l = []) :
    l = [] ∨ l = [[]] := by
  match l with
  | [] => exact Or.inl rfl
  | [s] => exact Or.inr (by simpa [joinSlash] using h)
  | s :: t :: r => simp [joinSlash] at h

theorem goIsAbs_goClean {p : List Char} (h : goIsAbs p = true) :
    goIsAbs (goClean p) = true := by
  simp only [goClean, h]
  rfl

theorem isPrefixOf_append_self (l t : List (List Char)) :
    l.isPrefixOf (l ++ t) = true := by
  induction l with
  | nil => simp [List.isPrefixOf]
  | cons a l ih => simp [List.isPrefixOf, ih]

theorem joinSlash_replicate_dotdot (n : Nat) (hn : 0 < n) :
    ∃ rest, joinSlash (List.replicate n ['.', '.']) = '.' :: '.' :: rest := by
  cases n with
  | zero => omega
  | succ m =>
    cases m with
    | zero => exact ⟨[], rfl⟩
    | succ k => exact ⟨'/' :: joinSlash (List.replicate (k + 1) ['.', '.']), rfl⟩

/-- If `filepath.Rel` from an absolute, clean root (with no empty elements
after the leading one) yields a relative path that does not begin with "..",
then the root's elements lead the target's elements: the target lies at or
below the root. -/
theorem goRel_allowed_inside
    (root targ0 r : List Char)
    (habs : goIsAbs root = true) (hclean : goClean root = root)
    (hsegs : ∀ s ∈ (splitOnSlash root).tail, s ≠ [])
    (htabs : goIsAbs targ0 = true)
    (hrel : goRel root targ0 = some r)
    (hpre : List.isPrefixOf ['.', '.'] r = false) :
    (cleanSegs root).isPrefixOf (cleanSegs (goClean targ0)) = true := by
  have htclean : goIsAbs (goClean targ0) = true := goIsAbs_goClean htabs
  simp only [goRel] at hrel
  rw [hclean] at hrel
  by_cases hT : goClean targ0 = root
  · rw [hT]
    have h := isPrefixOf_append_self (cleanSegs root) []
    rwa [List.append_nil] at h
  · rw [if_neg hT] at hrel
    have hdot : ¬ (root = ['.']) := by
      intro e
      rw [e] at habs
      simp [goIsAbs] at habs
    rw [if_neg hdot, habs, htclean] at hrel
    rw [if_neg (by simp)] at hrel
    by_cases hdd :
        headIsDotDot (dropCommonSegs (splitOnSlash root)
          (splitOnSlash (goClean targ0))).1 = true
    · rw [if_pos hdd] at hrel
      exact absurd hrel (by simp)
    · rw [if_neg hdd] at hrel
      by_cases hjb :
          joinSlash (dropCommonSegs (splitOnSlash root)
            (splitOnSlash (goClean targ0))).1 = []
      · rw [if_neg (by simp [hjb])] at hrel
        obtain ⟨com, hA, hB⟩ :=
          dropCommonSegs_decomp (splitOnSlash root) (splitOnSlash (goClean targ0))
        rcases joinSlash_eq_nil hjb with h1 | h1
        · rw [h1, List.append_nil] at hA
          unfold cleanSegs
          rw [hB, ← hA, List.filter_append]
          exact isPrefixOf_append_self _ _
        · cases com with
          | nil =>
            rw [h1] at hA
            simp only [List.nil_append] at hA
            have hroot : root = [] := by
              have hj := joinSlash_splitOnSlash root
              rw [hA] at hj
              simp only [joinSlash] at hj
              exact hj.symm
            rw [hroot] at habs
            simp [goIsAbs] at habs
          | cons c0 com' =>
            rw [h1] at hA
            have hmem : ([] : List Char) ∈ (splitOnSlash root).tail := by
              rw [hA]
              simp
            exact absurd rfl (hsegs [] hmem)
      · rw [if_pos (by simpa using hjb)] at hrel
        have hlen : 0 < (dropCommonSegs (splitOnSlash root)
            (splitOnSlash (goClean targ0))).1.length := by
          cases hq : (dropCommonSegs (splitOnSlash root)
              (splitOnSlash (goClean targ0))).1 with
          | nil => rw [hq] at hjb; simp [joinSlash] at hjb
          | cons x xs => simp [hq]
        obtain ⟨rest, hrest⟩ := joinSlash_replicate_dotdot _ hlen
        have hstart : List.isPrefixOf ['.', '.'] r = true := by
          by_cases hjt :
              joinSlash (dropCommonSegs (splitOnSlash root)
                (splitOnSlash (goClean targ0))).2 = []
          · rw [if_pos hjt] at hrel
            have := Option.some.inj hrel
            rw [← this, hrest]
            simp [List.isPrefixOf]
          · rw [if_neg hjt] at hrel
            have := Option.some.inj hrel
            rw [← this, hrest]
            simp [List.isPrefixOf]
        rw [hstart] at hpre
        cases hpre

/-- Claim C1, counterexample: the path `/uploads/..foo` resolves inside the
virtual root `/uploads` (its only traversal marker is part of a filename),
yet `isPathAllowed` rejects it, because the path relative to the root is
the string `..foo`, which begins with "..".  So "for every path P that
resolves inside the root it returns true" is false as stated. -/
theorem C1_counterexample :
    resolvesInside (chars "/uploads") (chars "/uploads/..foo") = true ∧
    isPathAllowed (chars "/uploads") (chars "/uploads/..foo") = false := by
  decide

/-- Claim C1 (amended): for a configured virtual root that is an absolute,
cleaned path with no empty elements, every path `isPathAllowed` accepts
resolves to the root or below it (equivalently, every path that resolves
outside the root is rejected, no matter how many traversal segments it
uses), and the root path itself is accepted.  Not amended away only the
converse direction: a path inside the root whose first element below the
root itself begins with ".." (such as `/uploads/..foo`) is also rejected. -/
theorem C1_pathGuard_containment (root : List Char)
    (habs : goIsAbs root = true) (hclean : goClean root = root)
    (hsegs : ∀ s ∈ (splitOnSlash root).tail, s ≠ []) :
    (∀ path, isPathAllowed root path = true → resolvesInside root path = true)
    ∧ isPathAllowed root root = true := by
  constructor
  · intro path hallow
    simp only [isPathAllowed] at hallow
    unfold resolvesInside resolvedPath
    set targ0 := if ¬ goIsAbs (goClean path) = true then '/' :: goClean path
      else goClean path with ht0
    have htabs : goIsAbs targ0 = true := by
      rw [ht0]
      split
      · rfl
      · rename_i hcond
        simpa using hcond
    cases hrel : goRel root targ0 with
    | none =>
      rw [hrel] at hallow
      simp at hallow
    | some r =>
      rw [hrel] at hallow
      simp only [decide_eq_true_eq, Bool.not_eq_true] at hallow
      exact goRel_allowed_inside root targ0 r habs hclean hsegs htabs hrel
        (by simpa using hallow)
  · simp only [isPathAllowed, hclean, habs]
    rw [if_neg (by simp)]
    have hgr : goRel root root = some ['.'] := by
      simp only [goRel]
      rw [hclean]
      simp
    rw [hgr]
    simp [List.isPrefixOf]

/-- Claim C1, witness: the amended theorem applied to the default virtual
root `/uploads` (which is absolute and clean) and a concrete request path. -/
theorem C1_pathGuard_containment_witness :
    (isPathAllowed (chars "/uploads") (chars "/uploads/dir/report.txt") = true →
      resolvesInside (chars "/uploads") (chars "/uploads/dir/report.txt") = true)
    ∧ isPathAllowed (chars "/uploads") (chars "/uploads") = true := by
  refine ⟨?_, ?_⟩
  · exact (C1_pathGuard_containment (chars "/uploads") (by decide) (by decide)
      (by decide)).1 (chars "/uploads/dir/report.txt")
  · exact (C1_pathGuard_containment (chars "/uploads") (by decide) (by decide)
      (by decide)).2

/-! ## The per-file upload buffer: `FileUpload`, `FileWriter.WriteAt`,
`FileWriter.Close` -/

/-- `FileUpload`: the in-memory state of one file being uploaded (the byte
buffer plus the session data captured at open). -/
structure FileUpload where
  data : List Nat
  path : List Char
  clientIP : List Char
  accessKey : List Char
  secretKey : List Char
deriving DecidableEq

/-- `FileWriter`: the handle `Filewrite` returns; `closed` guards against
writes after `Close`. -/
structure FileWriter where
  upload : FileUpload
  closed : Bool
deriving DecidableEq

/-- The two error values `FileWriter.WriteAt` can return:
`os.ErrClosed` and the "file too large" error. -/
inductive WriteError where
  | errClosed
  | fileTooLarge
deriving DecidableEq

deriving instance DecidableEq for Except

/-- Go's builtin `copy(dst, src)`: overwrites the first
`min (len dst) (len src)` elements of `dst` with those of `src`. -/
def goCopy (dst src : List Nat) : List Nat :=
  let n := min dst.length src.length
  src.take n ++ dst.drop n

/-- `FileWriter.WriteAt`: reject a closed writer with `errClosed`; reject a
write whose end position passes `maxFileSize` with `fileTooLarge`, leaving
the buffer untouched; otherwise grow the buffer to the end position with a
zero-filled copy if needed and copy the bytes into place at `off`. -/
def WriteAt (maxFileSize : Nat) (fw : FileWriter) (p : List Nat) (off : Nat) :
    FileWriter × Except WriteError Nat :=
  if fw.closed then (fw, .error .errClosed)
  else
    let endPos := off + p.length
    if endPos > maxFileSize then (fw, .error .fileTooLarge)
    else
      let data := fw.upload.data
      let data := if data.length < endPos then goCopy (List.replicate endPos 0) data
        else data
      let data := data.take off ++ goCopy (data.drop off) p
      ({ fw with upload := { fw.upload with data := data } }, .ok p.length)

/-- `FileWriter.Close`: a second close is a no-op; the first close marks the
writer closed and hands the whole accumulated buffer to the uploader. -/
def closeWriter (fw : FileWriter) : FileWriter × Option (List Nat) :=
  if fw.closed then (fw, none)
  else ({ fw with closed := true }, some fw.upload.data)

/-- A sequence of `WriteAt` calls, applied in order (each element is the
byte slice and its offset). -/
def applyWrites (maxFileSize : Nat) (fw : FileWriter) :
    List (List Nat × Nat) → FileWriter
  | [] => fw
  | w :: ws => applyWrites maxFileSize (WriteAt maxFileSize fw w.1 w.2).1 ws

example :
    (WriteAt 10 ⟨⟨[], [], [], [], []⟩, false⟩ [7, 8] 3).1.upload.data
      = [0, 0, 0, 7, 8] := by decide
example :
    (WriteAt 10 ⟨⟨[1, 2, 3, 4, 5], [], [], [], []⟩, false⟩ [7, 8] 1).1.upload.data
      = [1, 7, 8, 4, 5] := by decide
example :
    (WriteAt 4 ⟨⟨[], [], [], [], []⟩, false⟩ [7, 8] 3).2
      = .error .fileTooLarge := by decide

/-- The buffer zero-extended to length at least `n` (how a successful
`WriteAt` grows the buffer before copying bytes in). -/
def extendTo (d : List Nat) (n : Nat) : List Nat :=
  d ++ List.replicate (n - d.length) 0

theorem extendTo_length (d : List Nat) (n : Nat) :
    (extendTo d n).length = max d.length n := by
  simp only [extendTo, List.length_append, List.length_replicate]
  omega

theorem extendTo_getElem_lt {d : List Nat} {n i : Nat} (h : i < d.length) :
    (extendTo d n)[i]? = d[i]? := by
  simp [extendTo, List.getElem?_append, h]

theorem extendTo_getElem_mid {d : List Nat} {n i : Nat}
    (h1 : d.length ≤ i) (h2 : i < n) :
    (extendTo d n)[i]? = some 0 := by
  rw [extendTo, List.getElem?_append_right h1, List.getElem?_replicate]
  rw [if_pos (by omega)]

theorem extendTo_getElem_ge {d : List Nat} {n i : Nat} (h : n ≤ i) :
    (extendTo d n)[i]? = d[i]? := by
  by_cases hd : i < d.length
  · exact extendTo_getElem_lt hd
  · have h1 : (extendTo d n)[i]? = none :=
      List.getElem?_eq_none (by rw [extendTo_length]; omega)
    have h2 : d[i]? = none := List.getElem?_eq_none (by omega)
    rw [h1, h2]

theorem goCopy_src_le {dst src : List Nat} (h : src.length ≤ dst.length) :
    goCopy dst src = src ++ dst.drop src.length := by
  simp only [goCopy]
  rw [min_eq_right h, List.take_length]

theorem goCopy_replicate {n : Nat} (old : List Nat) (h : old.length ≤ n) :
    goCopy (List.replicate n 0) old = extendTo old n := by
  simp only [goCopy, extendTo]
  rw [List.length_replicate, min_eq_right h, List.take_length, List.drop_replicate]

/-- A successful `WriteAt` produces exactly: the zero-extended old buffer up
to `off`, then the written bytes, then the zero-extended old buffer from
`off + len p` on. -/
theorem WriteAt_ok_data (maxFS : Nat) (fw : FileWriter) (p : List Nat) (off : Nat)
    (hopen : fw.closed = false) (hsize : off + p.length ≤ maxFS) :
    (WriteAt maxFS fw p off).1.upload.data =
      (extendTo fw.upload.data (off + p.length)).take off ++ p ++
        (extendTo fw.upload.data (off + p.length)).drop (off + p.length) := by
  unfold WriteAt
  rw [hopen]
  simp only [Bool.false_eq_true, if_false]
  rw [if_neg (by omega)]
  by_cases hlt : fw.upload.data.length < off + p.length
  · rw [if_pos hlt, goCopy_replicate _ (Nat.le_of_lt hlt)]
    rw [goCopy_src_le (by rw [List.length_drop, extendTo_length]; omega)]
    rw [List.drop_drop, List.append_assoc]
  · rw [if_neg hlt]
    have hE : extendTo fw.upload.data (off + p.length) = fw.upload.data := by
      unfold extendTo
      rw [Nat.sub_eq_zero_of_le (by omega), List.replicate_zero, List.append_nil]
    rw [hE, goCopy_src_le (by rw [List.length_drop]; omega)]
    rw [List.drop_drop, List.append_assoc]

theorem WriteAt_ok_length (maxFS : Nat) (fw : FileWriter) (p : List Nat) (off : Nat)
    (hopen : fw.closed = false) (hsize : off + p.length ≤ maxFS) :
    (WriteAt maxFS fw p off).1.upload.data.length
      = max fw.upload.data.length (off + p.length) := by
  rw [WriteAt_ok_data maxFS fw p off hopen hsize]
  simp only [List.length_append, List.length_take, List.length_drop, extendTo_length]
  omega

theorem WriteAt_ok_closed (maxFS : Nat) (fw : FileWriter) (p : List Nat) (off : Nat)
    (hopen : fw.closed = false) (hsize : off + p.length ≤ maxFS) :
    (WriteAt maxFS fw p off).1.closed = false := by
  unfold WriteAt
  rw [hopen]
  simp only [Bool.false_eq_true, if_false]
  rw [if_neg (by omega)]

theorem WriteAt_length_le (maxFS : Nat) (fw : FileWriter) (p : List Nat) (off : Nat)
    (h : fw.upload.data.length ≤ maxFS) :
    (WriteAt maxFS fw p off).1.upload.data.length ≤ maxFS := by
  by_cases hc : fw.closed = true
  · unfold WriteAt
    rw [if_pos hc]
    exact h
  · have hc' : fw.closed = false := by simpa using hc
    by_cases hs : off + p.length > maxFS
    · unfold WriteAt
      rw [hc']
      simp only [Bool.false_eq_true, if_false]
      rw [if_pos hs]
      exact h
    · rw [WriteAt_ok_length maxFS fw p off hc' (by omega)]
      omega

theorem applyWrites_length_le (maxFS : Nat) (writes : List (List Nat × Nat)) :
    ∀ fw : FileWriter, fw.upload.data.length ≤ maxFS →
      (applyWrites maxFS fw writes).upload.data.length ≤ maxFS := by
  induction writes with
  | nil => exact fun fw h => h
  | cons w ws ih =>
    intro fw h
    exact ih _ (WriteAt_length_le maxFS fw w.1 w.2 h)

/-- Claim C2: a `WriteAt` of bytes `p` at offset `off` that fits under the
maximum file size lands exactly at `off`: positions `off..off+len p-1` of
the buffer read back `p`; any gap between the previous buffer length and
`off` is zero-filled; positions below `off` and at or past `off + len p`
keep their previous contents (so non-overlapping writes compose and a
later overlapping write wins at each overlapping position); the buffer's
length becomes the maximum of its old length and the write's end; and
`Close` hands exactly this buffer on for storage. -/
theorem C2_writeAt_places_bytes (maxFS : Nat) (fw : FileWriter) (p : List Nat)
    (off : Nat) (hopen : fw.closed = false) (hsize : off + p.length ≤ maxFS) :
    (∀ i, i < p.length →
      (WriteAt maxFS fw p off).1.upload.data[off + i]? = p[i]?)
    ∧ (∀ i, fw.upload.data.length ≤ i → i < off →
      (WriteAt maxFS fw p off).1.upload.data[i]? = some 0)
    ∧ (∀ i, i < off → i < fw.upload.data.length →
      (WriteAt maxFS fw p off).1.upload.data[i]? = fw.upload.data[i]?)
    ∧ (∀ i, off + p.length ≤ i →
      (WriteAt maxFS fw p off).1.upload.data[i]? = fw.upload.data[i]?)
    ∧ (WriteAt maxFS fw p off).1.upload.data.length
      = max fw.upload.data.length (off + p.length)
    ∧ (closeWriter (WriteAt maxFS fw p off).1).2
      = some (WriteAt maxFS fw p off).1.upload.data := by
  have hdata := WriteAt_ok_data maxFS fw p off hopen hsize
  have hElen : (extendTo fw.upload.data (off + p.length)).length
      = max fw.upload.data.length (off + p.length) := extendTo_length _ _
  have hAlen : ((extendTo fw.upload.data (off + p.length)).take off).length = off := by
    rw [List.length_take, hElen]
    omega
  refine ⟨?_, ?_, ?_, ?_, ?_, ?_⟩
  · intro i hi
    have h1 : ((extendTo fw.upload.data (off + p.length)).take off ++ p ++
        (extendTo fw.upload.data (off + p.length)).drop (off + p.length))[off + i]?
        = ((extendTo fw.upload.data (off + p.length)).take off ++ p)[off + i]? :=
      List.getElem?_append_left (by rw [List.length_append, hAlen]; omega)
    have h2 : (((extendTo fw.upload.data (off + p.length)).take off ++ p))[off + i]?
        = p[off + i - ((extendTo fw.upload.data (off + p.length)).take off).length]? :=
      List.getElem?_append_right (by rw [hAlen]; omega)
    rw [hdata, h1, h2, hAlen]
    have harith : off + i - off = i := by omega
    rw [harith]
  · intro i hlow hhigh
    have h1 : ((extendTo fw.upload.data (off + p.length)).take off ++ p ++
        (extendTo fw.upload.data (off + p.length)).drop (off + p.length))[i]?
        = ((extendTo fw.upload.data (off + p.length)).take off ++ p)[i]? :=
      List.getElem?_append_left (by rw [List.length_append, hAlen]; omega)
    have h2 : (((extendTo fw.upload.data (off + p.length)).take off ++ p))[i]?
        = ((extendTo fw.upload.data (off + p.length)).take off)[i]? :=
      List.getElem?_append_left (by rw [hAlen]; omega)
    rw [hdata, h1, h2, List.getElem?_take, if_pos hhigh]
    exact extendTo_getElem_mid hlow (by omega)
  · intro i hoff hlen
    have h1 : ((extendTo fw.upload.data (off + p.length)).take off ++ p ++
        (extendTo fw.upload.data (off + p.length)).drop (off + p.length))[i]?
        = ((extendTo fw.upload.data (off + p.length)).take off ++ p)[i]? :=
      List.getElem?_append_left (by rw [List.length_append, hAlen]; omega)
    have h2 : (((extendTo fw.upload.data (off + p.length)).take off ++ p))[i]?
        = ((extendTo fw.upload.data (off + p.length)).take off)[i]? :=
      List.getElem?_append_left (by rw [hAlen]; omega)
    rw [hdata, h1, h2, List.getElem?_take, if_pos hoff]
    exact extendTo_getElem_lt hlen
  · intro i hi
    rw [hdata, List.getElem?_append_right (by rw [List.length_append, hAlen]; omega)]
    rw [List.getElem?_drop]
    rw [List.length_append, hAlen]
    have harith : off + p.length + (i - (off + p.length)) = i := by omega
    rw [harith]
    exact extendTo_getElem_ge hi
  · exact WriteAt_ok_length maxFS fw p off hopen hsize
  · have hcl := WriteAt_ok_closed maxFS fw p off hopen hsize
    unfold closeWriter
    rw [hcl]
    simp

/-- Claim C2, witness: writing `[5]` at offset 4 over the two-byte buffer
`[1, 2]` with maximum size 10.  The hypotheses (writer open, write within
the size bound) are discharged concretely and the `Close` conjunct of the
theorem is drawn from it. -/
theorem C2_writeAt_places_bytes_witness :
    (⟨⟨[1, 2], [], [], [], []⟩, false⟩ : FileWriter).closed = false ∧
    4 + [5].length ≤ 10 ∧
    (closeWriter (WriteAt 10 ⟨⟨[1, 2], [], [], [], []⟩, false⟩ [5] 4).1).2
      = some (WriteAt 10 ⟨⟨[1, 2], [], [], [], []⟩, false⟩ [5] 4).1.upload.data := by
  refine ⟨rfl, by decide, ?_⟩
  exact (C2_writeAt_places_bytes 10 ⟨⟨[1, 2], [], [], [], []⟩, false⟩ [5] 4 rfl
    (by decide)).2.2.2.2.2

/-- Claim C3: `WriteAt` on a closed writer always fails with the closed
error and returns the state unchanged; on an open writer it fails with the
size error exactly when `off + len p` exceeds the maximum file size, in
which case the state (buffer included) is unchanged and the writer stays
open; and after any sequence of `WriteAt` calls the buffer's length never
exceeds the maximum file size. -/
theorem C3_writeAt_errors (maxFS : Nat) (fw : FileWriter) (p : List Nat) (off : Nat) :
    (fw.closed = true → WriteAt maxFS fw p off = (fw, .error .errClosed))
    ∧ (fw.closed = false →
        ((WriteAt maxFS fw p off).2 = .error .fileTooLarge ↔ off + p.length > maxFS))
    ∧ (fw.closed = false → off + p.length > maxFS →
        (WriteAt maxFS fw p off).1 = fw)
    ∧ (∀ writes, fw.upload.data.length ≤ maxFS →
        (applyWrites maxFS fw writes).upload.data.length ≤ maxFS) := by
  refine ⟨?_, ?_, ?_, fun writes h => applyWrites_length_le maxFS writes fw h⟩
  · intro hc
    unfold WriteAt
    rw [if_pos hc]
  · intro hc
    unfold WriteAt
    rw [hc]
    simp only [Bool.false_eq_true, if_false]
    constructor
    · intro h
      by_contra hs
      rw [if_neg hs] at h
      simp at h
    · intro hs
      rw [if_pos hs]
  · intro hc hs
    unfold WriteAt
    rw [hc]
    simp only [Bool.false_eq_true, if_false]
    rw [if_pos hs]

/-- Claim C3, witness: a closed writer rejects a write unchanged; an open
writer over buffer `[3]` rejects a write of two bytes at offset 9 under
maximum size 10 and keeps its state; a concrete write sequence respects
the size bound. -/
theorem C3_writeAt_errors_witness :
    (WriteAt 10 ⟨⟨[3], [], [], [], []⟩, true⟩ [1] 0
      = (⟨⟨[3], [], [], [], []⟩, true⟩, .error .errClosed))
    ∧ ((WriteAt 10 ⟨⟨[3], [], [], [], []⟩, false⟩ [1, 1] 9).2
      = .error .fileTooLarge)
    ∧ ((WriteAt 10 ⟨⟨[3], [], [], [], []⟩, false⟩ [1, 1] 9).1
      = ⟨⟨[3], [], [], [], []⟩, false⟩)
    ∧ (applyWrites 10 ⟨⟨[3], [], [], [], []⟩, false⟩
        [([1, 2, 3], 2), ([9], 20)]).upload.data.length ≤ 10 := by
  refine ⟨(C3_writeAt_errors 10 _ [1] 0).1 rfl, ?_, ?_, ?_⟩
  · exact ((C3_writeAt_errors 10 ⟨⟨[3], [], [], [], []⟩, false⟩ [1, 1] 9).2.1 rfl).mpr
      (by decide)
  · exact (C3_writeAt_errors 10 ⟨⟨[3], [], [], [], []⟩, false⟩ [1, 1] 9).2.2.1 rfl
      (by decide)
  · exact (C3_writeAt_errors 10 ⟨⟨[3], [], [], [], []⟩, false⟩ [1, 1] 9).2.2.2
      [([1, 2, 3], 2), ([9], 20)] (by decide)

/-! ## The upload registry and the write dispatcher (`Filewrite`) -/

/-- The registry of in-flight uploads: `activeUploads`, a map keyed by
virtual path (the code's `sync.Map`). -/
def UploadMap : Type := List Char → Option FileUpload

/-- `sync.Map.Store`: set the entry for a key, replacing any previous one. -/
def storeUpload (m : UploadMap) (key : List Char) (u : FileUpload) : UploadMap :=
  fun q => if q = key then some u else m q

/-- `SessionSFTPHandler.Filewrite`: build a fresh `FileUpload` (empty
buffer) carrying the session's credentials, reject the request if the path
fails the guard, otherwise register the fresh upload under the path —
overwriting any previous entry — and return a writer over it. -/
def SessionFilewrite (virtualDir : List Char) (m : UploadMap)
    (filepath clientIP accessKeyID secretAccessKey : List Char) :
    UploadMap × Option FileWriter :=
  let upload : FileUpload := ⟨[], filepath, clientIP, accessKeyID, secretAccessKey⟩
  if ¬ isPathAllowed virtualDir filepath then (m, none)
  else (storeUpload m filepath upload, some ⟨upload, false⟩)

/-- Claim C4, counterexample: with a live `FileUpload` (one byte already
buffered) registered for `/uploads/f.txt`, a new `Filewrite` for the same
path does not return that existing state: it returns a fresh upload with
an empty buffer, distinct from the registered one. -/
theorem C4_counterexample :
    ((SessionFilewrite (chars "/uploads")
        (storeUpload (fun _ => none) (chars "/uploads/f.txt")
          ⟨[7], chars "/uploads/f.txt", chars "ip", chars "AK", chars "SK"⟩)
        (chars "/uploads/f.txt") (chars "ip") (chars "AK") (chars "SK")).2
      = some ⟨⟨[], chars "/uploads/f.txt", chars "ip", chars "AK", chars "SK"⟩, false⟩)
    ∧ (⟨[], chars "/uploads/f.txt", chars "ip", chars "AK", chars "SK"⟩ : FileUpload)
      ≠ ⟨[7], chars "/uploads/f.txt", chars "ip", chars "AK", chars "SK"⟩ := by
  decide

/-- Claim C4 (amended): opening a write for an allowed path always creates
a fresh `UploadState` with an empty buffer and returns it — it never
returns a previously registered state; the fresh state overwrites the
registry entry for that path (so the registry, being a map, still holds at
most one live state per path), and entries for other paths are untouched. -/
theorem C4_filewrite_fresh (virtualDir : List Char) (m : UploadMap)
    (filepath clientIP accessKeyID secretAccessKey : List Char)
    (hallow : isPathAllowed virtualDir filepath = true) :
    (SessionFilewrite virtualDir m filepath clientIP accessKeyID secretAccessKey).2
      = some ⟨⟨[], filepath, clientIP, accessKeyID, secretAccessKey⟩, false⟩
    ∧ (SessionFilewrite virtualDir m filepath clientIP accessKeyID
        secretAccessKey).1 filepath
      = some ⟨[], filepath, clientIP, accessKeyID, secretAccessKey⟩
    ∧ (∀ q, q ≠ filepath →
        (SessionFilewrite virtualDir m filepath clientIP accessKeyID
          secretAccessKey).1 q = m q) := by
  unfold SessionFilewrite
  rw [if_neg (by simp [hallow])]
  exact ⟨rfl, by simp [storeUpload], fun q hq => by simp [storeUpload, hq]⟩

/-- Claim C4, witness: the amended theorem at the default root, a concrete
path and concrete session values, over an arbitrary concrete registry. -/
theorem C4_filewrite_fresh_witness :
    isPathAllowed (chars "/uploads") (chars "/uploads/f.txt") = true ∧
    (SessionFilewrite (chars "/uploads") (fun _ => none)
        (chars "/uploads/f.txt") (chars "ip") (chars "AK") (chars "SK")).2
      = some ⟨⟨[], chars "/uploads/f.txt", chars "ip", chars "AK", chars "SK"⟩, false⟩ := by
  refine ⟨by decide, ?_⟩
  exact (C4_filewrite_fresh (chars "/uploads") (fun _ => none) (chars "/uploads/f.txt")
    (chars "ip") (chars "AK") (chars "SK") (by decide)).1

/-! ## The command dispatcher (`Filecmd`) -/

/-- Outcome of a `Filecmd` request: success (`nil`), `os.ErrPermission`,
or `os.ErrInvalid`. -/
inductive CmdOutcome where
  | ok
  | errPermission
  | errInvalid
deriving DecidableEq

set_option linter.unusedVariables false in
/-- `SessionSFTPHandler.Filecmd`: a fixed table over the method name.
The request path is received (and logged) but never consulted: Mkdir and
Setstat succeed as no-ops for every path, Remove/Rename/Rmdir are
permission errors, and any other method is invalid. -/
def Filecmd (method filepath : List Char) : CmdOutcome :=
  if method = chars "Remove" then .errPermission
  else if method = chars "Rename" then .errPermission
  else if method = chars "Mkdir" then .ok
  else if method = chars "Rmdir" then .errPermission
  else if method = chars "Setstat" then .ok
  else .errInvalid

example : Filecmd (chars "Remove") (chars "/uploads/x") = .errPermission := by decide
example : Filecmd (chars "Rename") (chars "/uploads/x") = .errPermission := by decide
example : Filecmd (chars "Rmdir") (chars "/uploads/x") = .errPermission := by decide
example : Filecmd (chars "Setstat") (chars "/uploads/x") = .ok := by decide
example : Filecmd (chars "UnknownOperation") (chars "/uploads/x") = .errInvalid := by decide

/-- Claim C5, counterexample: `/etc/passwd` fails the path-containment
check, yet a Mkdir for it succeeds — the dispatcher accepts the request
as a no-op instead of rejecting it. -/
theorem C5_counterexample :
    isPathAllowed (chars "/uploads") (chars "/etc/passwd") = false ∧
    Filecmd (chars "Mkdir") (chars "/etc/passwd") = .ok := by
  decide

/-- Claim C5 (amended): Mkdir is not gated by the path-containment check at
all — the dispatcher accepts it as a no-op for every path, including every
path that resolves outside the configured virtual root. -/
theorem C5_mkdir_unguarded (filepath : List Char) :
    Filecmd (chars "Mkdir") filepath = .ok := by
  rfl

/-! ## The connection supervisor's live-connection bookkeeping

`SFTPServer.acceptConnections` increments `activeConns` for every accepted
connection and spawns `handleConnection`; the handler's exit decrements it.
Neither consults `config.MaxConnections`, and `handleConnection` refuses
the handshake only on a transport error, never on the live count. -/

/-- The supervisor's only per-connection accounting: the number of
connection handlers in flight (the `activeConns` wait-group counter). -/
structure ServerState where
  live : Nat
deriving DecidableEq

/-- A connection-lifecycle event: the accept loop admits a connection
(`activeConns.Add(1)`; the handler then attempts the handshake
unconditionally), or a handler finishes (`activeConns.Done()`). -/
inductive ConnEvent where
  | accept
  | finish

/-- One step of the supervisor's accounting, from `acceptConnections` and
`handleConnection`: no branch reads the configured maximum. -/
def serverStep (s : ServerState) : ConnEvent → ServerState
  | .accept => ⟨s.live + 1⟩
  | .finish => ⟨s.live - 1⟩

/-- The accounting over a sequence of connection events. -/
def runServer (s : ServerState) (events : List ConnEvent) : ServerState :=
  events.foldl serverStep s

/-- Claim C6 (code bug): with the configured maximum at 1, two
concurrently accepted connections are both admitted and handed to
handlers — the live count reaches 2, exceeding the configured maximum,
because no code path checks `MaxConnections` before the handshake. -/
theorem C6_maxConnections_not_enforced :
    (runServer ⟨0⟩ [ConnEvent.accept, ConnEvent.accept]).live = 2 ∧ 2 > 1 := by
  decide

/-! ## The authenticator (`Authenticator.Authenticate`) -/

/-- What the identity-delegate round comes back with, case for case as the
code distinguishes them: the AWS client configuration fails to load, the
STS `GetCallerIdentity` call errors, it succeeds but carries a nil account
field, or it succeeds with an account identifier. -/
inductive DelegateResult where
  | loadConfigError
  | getCallerIdentityError
  | nilAccount
  | account (accountID : List Char)
deriving DecidableEq

/-- The three failure shapes `Authenticate` returns: the
"credentials cannot be empty", "invalid credentials" and
"unauthorized account" errors. -/
inductive AuthError where
  | emptyCredentials
  | invalidCredentials
  | unauthorizedAccount
deriving DecidableEq

/-- `ssh.Permissions.Extensions` as `Authenticate` fills it on success. -/
structure Permissions where
  awsAccessKeyId : List Char
  awsSecretAccessKey : List Char
  awsAccountId : List Char
  clientIp : List Char
deriving DecidableEq

/-- `Authenticator.Authenticate`: reject empty credentials before any
external call; map every delegate failure (config load, STS error, nil
account) to the invalid-credentials error; reject a verified account that
differs from the required one; otherwise return the permissions record
binding the presented pair, the account and the client address.  The
second component records whether the external STS call was made. -/
def Authenticate (requiredAccountID clientIP accessKeyID secretAccessKey : List Char)
    (delegate : DelegateResult) : Except AuthError Permissions × Bool :=
  if accessKeyID = [] ∨ secretAccessKey = [] then (.error .emptyCredentials, false)
  else
    match delegate with
    | .loadConfigError => (.error .invalidCredentials, false)
    | .getCallerIdentityError => (.error .invalidCredentials, true)
    | .nilAccount => (.error .invalidCredentials, true)
    | .account accountID =>
      if accountID ≠ requiredAccountID then (.error .unauthorizedAccount, true)
      else (.ok ⟨accessKeyID, secretAccessKey, accountID, clientIP⟩, true)

/-- Claim C7: `Authenticate` fails with the empty-credentials error and
makes no external call exactly when the identifier or the secret is empty;
every delegate failure (transport, verification, missing account) maps to
the invalid-credentials error; a verified account differing from the
required value fails as unauthorized; and a matching account yields the
session permissions binding the presented pair. -/
theorem C7_authenticate_contract (required clientIP : List Char) :
    (∀ ak sk d, (ak = [] ∨ sk = []) →
      Authenticate required clientIP ak sk d = (.error .emptyCredentials, false))
    ∧ (∀ ak sk d,
      (Authenticate required clientIP ak sk d).1 = .error .emptyCredentials →
      ak = [] ∨ sk = [])
    ∧ (∀ a as b bs,
      (Authenticate required clientIP (a :: as) (b :: bs) .loadConfigError).1
        = .error .invalidCredentials)
    ∧ (∀ a as b bs,
      (Authenticate required clientIP (a :: as) (b :: bs) .getCallerIdentityError).1
        = .error .invalidCredentials)
    ∧ (∀ a as b bs,
      (Authenticate required clientIP (a :: as) (b :: bs) .nilAccount).1
        = .error .invalidCredentials)
    ∧ (∀ a as b bs accountID, accountID ≠ required →
      (Authenticate required clientIP (a :: as) (b :: bs) (.account accountID)).1
        = .error .unauthorizedAccount)
    ∧ (∀ a as b bs,
      Authenticate required clientIP (a :: as) (b :: bs) (.account required)
        = (.ok ⟨a :: as, b :: bs, required, clientIP⟩, true)) := by
  refine ⟨?_, ?_, ?_, ?_, ?_, ?_, ?_⟩
  · intro ak sk d h
    unfold Authenticate
    rw [if_pos h]
  · intro ak sk d h
    by_cases hempty : ak = [] ∨ sk = []
    · exact hempty
    · exfalso
      unfold Authenticate at h
      rw [if_neg hempty] at h
      cases d with
      | loadConfigError => simp at h
      | getCallerIdentityError => simp at h
      | nilAccount => simp at h
      | account accountID =>
        by_cases hacc : accountID = required
        · simp [hacc] at h
        · simp [hacc] at h
  · intro a as b bs
    unfold Authenticate
    rw [if_neg (by simp)]
  · intro a as b bs
    unfold Authenticate
    rw [if_neg (by simp)]
  · intro a as b bs
    unfold Authenticate
    rw [if_neg (by simp)]
  · intro a as b bs accountID hacc
    unfold Authenticate
    rw [if_neg (by simp)]
    simp [hacc]
  · intro a as b bs
    unfold Authenticate
    rw [if_neg (by simp)]
    simp

/-- Claim C7, witness: the contract applied at concrete credentials — an
empty identifier fails without the external call; a mismatched account is
unauthorized; a matching account yields the session. -/
theorem C7_authenticate_contract_witness :
    (Authenticate ['1'] ['i'] [] ['p'] DelegateResult.loadConfigError
      = (.error .emptyCredentials, false))
    ∧ ((Authenticate ['1'] ['i'] ['A'] ['p'] (.account ['9'])).1
      = .error .unauthorizedAccount)
    ∧ (Authenticate ['1'] ['i'] ['A'] ['p'] (.account ['1'])
      = (.ok ⟨['A'], ['p'], ['1'], ['i']⟩, true)) := by
  refine ⟨?_, ?_, ?_⟩
  · exact (C7_authenticate_contract ['1'] ['i']).1 [] ['p'] _ (Or.inl rfl)
  · exact (C7_authenticate_contract ['1'] ['i']).2.2.2.2.2.1 'A' [] 'p' [] ['9']
      (by decide)
  · exact (C7_authenticate_contract ['1'] ['i']).2.2.2.2.2.2 'A' [] 'p' []

/-! ## Storage-key derivation (`S3Uploader.generateS3Key`) -/

/-- The scan of Go `strings.ReplaceAll(s, pat, rep)` for a nonempty
pattern: replace each leftmost non-overlapping occurrence of `pat` by
`rep` and continue after it.  The fuel argument (always the remaining
input's length; at least one character is consumed per step) only makes
the scan structurally recursive. -/
def replaceAllFuel (pat rep : List Char) : Nat → List Char → List Char
  | _, [] => []
  | 0, s => s
  | fuel + 1, c :: cs =>
    if pat ≠ [] ∧ pat.isPrefixOf (c :: cs) then
      rep ++ replaceAllFuel pat rep fuel ((c :: cs).drop pat.length)
    else c :: replaceAllFuel pat rep fuel cs

/-- Go `strings.ReplaceAll(s, pat, rep)` (the source only uses the
nonempty patterns " " and ".."). -/
def goReplaceAll (pat rep s : List Char) : List Char :=
  replaceAllFuel pat rep s.length s

example : goReplaceAll ['.', '.'] ['_'] (chars "my file..name.txt")
    = chars "my file_name.txt" := by decide
example : goReplaceAll ['.', '.'] ['_'] (chars "....") = chars "__" := by decide
example : goReplaceAll ['.', '.'] ['_'] (chars "...") = chars "_." := by decide

/-- Go `filepath.Base` (Unix): "" gives ".", trailing slashes are
stripped, the part after the last slash remains, and an all-slash path
gives "/". -/
def goBase (path : List Char) : List Char :=
  if path = [] then ['.']
  else
    let stripped := (path.reverse.dropWhile (fun c => c = '/')).reverse
    let last := (stripped.reverse.takeWhile (fun c => ¬ c = '/')).reverse
    if last = [] then ['/'] else last

example : goBase (chars "/uploads/report.txt") = chars "report.txt" := by decide
example : goBase (chars "/uploads/") = chars "uploads" := by decide
example : goBase (chars "") = chars "." := by decide
example : goBase (chars "/") = chars "/" := by decide
example : goBase (chars "/uploads/..") = chars ".." := by decide

/-- The sanitized filename, as `generateS3Key` computes it: every space,
then every occurrence of "..", replaced by an underscore. -/
def sanitizeFilename (name : List Char) : List Char :=
  goReplaceAll ['.', '.'] ['_'] (goReplaceAll [' '] ['_'] name)

/-- `S3Uploader.generateS3Key`: base filename of the virtual path (the
degenerate forms "", "." and "/" become "unknown"), sanitized, prefixed
with the formatted current UTC date and — when one is configured — the
bucket-prefix segment ahead of the date.  The date string (the code's
`timeFunc().UTC().Format("2006-01-02")`) is passed in as `timestamp`. -/
def generateS3Key (bucketPrefix timestamp filePath : List Char) : List Char :=
  let filename := goBase filePath
  let filename := if filename = [] ∨ filename = ['.'] ∨ filename = ['/']
    then chars "unknown" else filename
  let sanitized := sanitizeFilename filename
  if bucketPrefix ≠ [] then bucketPrefix ++ '/' :: (timestamp ++ '/' :: sanitized)
  else timestamp ++ '/' :: sanitized

example : generateS3Key (chars "pre") (chars "2023-12-25") (chars "/uploads/my file.txt")
    = chars "pre/2023-12-25/my_file.txt" := by decide
example : generateS3Key [] (chars "2023-12-25") (chars "/uploads/my file..name.txt")
    = chars "2023-12-25/my_file_name.txt" := by decide
example : generateS3Key [] (chars "2023-12-25") (chars "/uploads/.")
    = chars "2023-12-25/unknown" := by decide
example : generateS3Key [] (chars "2023-12-25") (chars "/uploads/..")
    = chars "2023-12-25/_" := by decide
example : generateS3Key [] (chars "2023-12-25") (chars "/uploads/...")
    = chars "2023-12-25/_." := by decide

/-! Spec-side formulations of the sanitization scan, for the bridge
between "ReplaceAll" and "replaces every space / every occurrence". -/

/-- Every space replaced by an underscore, element by element. -/
def replaceSpaces : List Char → List Char :=
  List.map (fun c => if c = ' ' then '_' else c)

/-- Each leftmost non-overlapping ".." replaced by "_", as a window scan. -/
def replaceDotDot : List Char → List Char
  | [] => []
  | [c] => [c]
  | c :: d :: cs =>
    if c = '.' ∧ d = '.' then '_' :: replaceDotDot cs
    else c :: replaceDotDot (d :: cs)

/-- Whether ".." occurs somewhere in the list. -/
def hasDotDot : List Char → Bool
  | [] => false
  | [_] => false
  | c :: d :: cs => (c = '.' && d = '.') || hasDotDot (d :: cs)

theorem replaceAllFuel_space (fuel : Nat) :
    ∀ s : List Char, s.length ≤ fuel →
      replaceAllFuel [' '] ['_'] fuel s = replaceSpaces s := by
  induction fuel with
  | zero =>
    intro s hs
    cases s with
    | nil => rfl
    | cons c cs => simp at hs
  | succ n ih =>
    intro s hs
    cases s with
    | nil => rfl
    | cons c cs =>
      by_cases hc : c = ' '
      · subst hc
        rw [replaceAllFuel, if_pos ⟨by simp, by simp [List.isPrefixOf]⟩]
        simp only [List.length_cons, List.length_nil, List.drop_succ_cons,
          List.drop_zero]
        rw [ih cs (by simpa using hs)]
        rfl
      · rw [replaceAllFuel, if_neg (fun h => by
          have h2 := h.2
          simp [List.isPrefixOf] at h2
          exact hc h2.symm)]
        rw [ih cs (by simpa using hs)]
        simp [replaceSpaces, hc]

theorem replaceAllFuel_dotdot (fuel : Nat) :
    ∀ s : List Char, s.length ≤ fuel →
      replaceAllFuel ['.', '.'] ['_'] fuel s = replaceDotDot s := by
  induction fuel with
  | zero =>
    intro s hs
    cases s with
    | nil => rfl
    | cons c cs => simp at hs
  | succ n ih =>
    intro s hs
    match s with
    | [] => rfl
    | [c] =>
      rw [replaceAllFuel, if_neg (fun h => by simp [List.isPrefixOf] at h)]
      cases n with
      | zero => rfl
      | succ m => rfl
    | c :: d :: cs =>
      by_cases hcd : c = '.' ∧ d = '.'
      · obtain ⟨hc, hd⟩ := hcd
        subst hc
        subst hd
        rw [replaceAllFuel, if_pos ⟨by simp, by simp [List.isPrefixOf]⟩]
        simp only [List.length_cons, List.length_nil, List.drop_succ_cons,
          List.drop_zero]
        rw [ih cs (by simp at hs; omega)]
        rfl
      · rw [replaceAllFuel,
          if_neg (fun h => by
            have h2 := h.2
            simp [List.isPrefixOf] at h2
            exact hcd ⟨h2.1.symm, h2.2.symm⟩)]
        rw [ih (d :: cs) (by simp at hs ⊢; omega)]
        rw [replaceDotDot, if_neg hcd]

theorem goReplaceAll_space (s : List Char) :
    goReplaceAll [' '] ['_'] s = replaceSpaces s :=
  replaceAllFuel_space s.length s (Nat.le_refl _)

theorem goReplaceAll_dotdot (s : List Char) :
    goReplaceAll ['.', '.'] ['_'] s = replaceDotDot s :=
  replaceAllFuel_dotdot s.length s (Nat.le_refl _)

theorem sanitizeFilename_eq (name : List Char) :
    sanitizeFilename name = replaceDotDot (replaceSpaces name) := by
  unfold sanitizeFilename
  rw [goReplaceAll_space, goReplaceAll_dotdot]

theorem replaceSpaces_no_space (s : List Char) : ' ' ∉ replaceSpaces s := by
  intro h
  simp only [replaceSpaces, List.mem_map] at h
  obtain ⟨c, _, hc⟩ := h
  by_cases h' : c = ' ' <;> simp [h'] at hc

theorem mem_replaceDotDot {c : Char} :
    ∀ {s : List Char}, c ∈ replaceDotDot s → c ∈ s ∨ c = '_' := by
  intro s
  induction s using replaceDotDot.induct with
  | case1 => intro h; simp [replaceDotDot] at h
  | case2 d => intro h; simp [replaceDotDot] at h; simp [h]
  | case3 a b cs hab ih =>
    intro h
    rw [replaceDotDot, if_pos hab] at h
    rcases List.mem_cons.mp h with h1 | h1
    · exact Or.inr h1
    · rcases ih h1 with h2 | h2
      · exact Or.inl (by simp [h2])
      · exact Or.inr h2
  | case4 a b cs hab ih =>
    intro h
    rw [replaceDotDot, if_neg hab] at h
    rcases List.mem_cons.mp h with h1 | h1
    · exact Or.inl (by simp [h1])
    · rcases ih h1 with h2 | h2
      · exact Or.inl (by simp at h2 ⊢; tauto)
      · exact Or.inr h2

theorem replaceDotDot_no_space {s : List Char} (h : ' ' ∉ s) :
    ' ' ∉ replaceDotDot s := by
  intro hmem
  rcases mem_replaceDotDot hmem with h1 | h1
  · exact h h1
  · simp at h1

theorem hasDotDot_cons_ne {c : Char} (hc : ¬ c = '.') (l : List Char) :
    hasDotDot (c :: l) = hasDotDot l := by
  cases l with
  | nil => rfl
  | cons d ds => simp [hasDotDot, hc]

theorem replaceDotDot_cons_of_ne {d : Char} (hd : ¬ d = '.') (cs : List Char) :
    ∃ X, replaceDotDot (d :: cs) = d :: X := by
  cases cs with
  | nil => exact ⟨[], rfl⟩
  | cons e es =>
    rw [replaceDotDot, if_neg (fun h => hd h.1)]
    exact ⟨_, rfl⟩

theorem hasDotDot_replaceDotDot (s : List Char) :
    hasDotDot (replaceDotDot s) = false := by
  induction s using replaceDotDot.induct with
  | case1 => rfl
  | case2 d => rfl
  | case3 a b cs hab ih =>
    rw [replaceDotDot, if_pos hab]
    rw [hasDotDot_cons_ne (by decide) _]
    exact ih
  | case4 a b cs hab ih =>
    rw [replaceDotDot, if_neg hab]
    by_cases ha : a = '.'
    · have hb : ¬ b = '.' := fun hb => hab ⟨ha, hb⟩
      obtain ⟨X, hX⟩ := replaceDotDot_cons_of_ne hb cs
      rw [hX]
      rw [hX] at ih
      simp only [hasDotDot, Bool.or_eq_false_iff]
      constructor
      · simp [hb]
      · exact ih
    · rw [hasDotDot_cons_ne ha _]
      exact ih

theorem hasDotDot_false_head {s : List Char} (h : hasDotDot s = false) :
    ∀ d ds, s = d :: ds → hasDotDot ds = false := by
  intro d ds hs
  subst hs
  cases ds with
  | nil => rfl
  | cons e es =>
    simp only [hasDotDot, Bool.or_eq_false_iff] at h
    exact h.2

theorem replaceDotDot_eq_self :
    ∀ {s : List Char}, hasDotDot s = false → replaceDotDot s = s := by
  intro s
  induction s using replaceDotDot.induct with
  | case1 => intro _; rfl
  | case2 d => intro _; rfl
  | case3 a b cs hab ih =>
    intro h
    simp [hasDotDot, hab.1, hab.2] at h
  | case4 a b cs hab ih =>
    intro h
    rw [replaceDotDot, if_neg hab]
    rw [ih (hasDotDot_false_head h a (b :: cs) rfl)]

theorem replaceSpaces_eq_self : ∀ {s : List Char}, ' ' ∉ s → replaceSpaces s = s := by
  intro s h
  simp only [replaceSpaces]
  induction s with
  | nil => rfl
  | cons c cs ih =>
    have hc : ¬ c = ' ' := fun e => h (by simp [e])
    simp only [List.map_cons, if_neg hc]
    rw [ih (fun e => h (List.mem_cons_of_mem _ e))]

theorem hasDotDot_iff_infix : ∀ {s : List Char},
    hasDotDot s = true ↔ ['.', '.'] <:+: s := by
  intro s
  induction s using hasDotDot.induct with
  | case1 =>
    simp only [hasDotDot, Bool.false_eq_true, false_iff]
    intro h
    have := h.length_le
    simp at this
  | case2 c =>
    simp only [hasDotDot, Bool.false_eq_true, false_iff]
    intro h
    have := h.length_le
    simp at this
  | case3 c d cs ih =>
    simp only [hasDotDot, Bool.or_eq_true, Bool.and_eq_true, decide_eq_true_eq]
    rw [ih]
    constructor
    · rintro (⟨hc, hd⟩ | h)
      · exact List.IsPrefix.isInfix ⟨cs, by simp [hc, hd]⟩
      · exact List.infix_cons_iff.mpr (Or.inr h)
    · intro h
      rcases List.infix_cons_iff.mp h with hpre | hinf
      · obtain ⟨hc, h2⟩ := List.cons_prefix_cons.mp hpre
        obtain ⟨hd, _⟩ := List.cons_prefix_cons.mp h2
        exact Or.inl ⟨hc.symm, hd.symm⟩
      · exact Or.inr hinf

theorem sanitizeFilename_idem (name : List Char) :
    sanitizeFilename (sanitizeFilename name) = sanitizeFilename name := by
  rw [sanitizeFilename_eq, sanitizeFilename_eq]
  rw [replaceSpaces_eq_self (replaceDotDot_no_space (replaceSpaces_no_space name))]
  rw [replaceDotDot_eq_self (hasDotDot_replaceDotDot _)]

theorem suffix_append_of_suffix {X B : List Char} (A : List Char) (h : X <:+ B) :
    X <:+ A ++ B := by
  obtain ⟨t, ht⟩ := h
  exact ⟨A ++ t, by rw [List.append_assoc, ht]⟩

/-- The storage key as the spec words it (§4.5): the base filename of the
path — the degenerate forms substituted by the fixed placeholder — with
every space and every occurrence of the two-character traversal sequence
replaced by an underscore, prefixed by the date partition and, when one is
configured, the bucket-prefix segment ahead of the date. -/
def specStorageKey (bucketPrefix timestamp filePath : List Char) : List Char :=
  let base := goBase filePath
  let name := if base = [] ∨ base = ['.'] ∨ base = ['/'] then chars "unknown" else base
  (if bucketPrefix = [] then [] else bucketPrefix ++ ['/'])
    ++ timestamp ++ '/' :: replaceDotDot (replaceSpaces name)

/-- Claim C8: the sanitized filename segment never contains a space nor an
occurrence of the two-character traversal sequence; sanitization is
idempotent; and each of the degenerate inputs "", "." and "/" to key
derivation yields the fixed placeholder as the key's filename segment. -/
theorem C8_sanitize_invariants (name bucketPrefix timestamp : List Char) :
    ¬ (' ' ∈ sanitizeFilename name)
    ∧ ¬ (['.', '.'] <:+: sanitizeFilename name)
    ∧ sanitizeFilename (sanitizeFilename name) = sanitizeFilename name
    ∧ (chars "/unknown" <:+ generateS3Key bucketPrefix timestamp (chars ""))
    ∧ (chars "/unknown" <:+ generateS3Key bucketPrefix timestamp (chars "."))
    ∧ (chars "/unknown" <:+ generateS3Key bucketPrefix timestamp (chars "/")) := by
  have hkey : ∀ fp : List Char, goBase fp = ['.'] ∨ goBase fp = ['/'] →
      chars "/unknown" <:+ generateS3Key bucketPrefix timestamp fp := by
    intro fp hfp
    simp only [generateS3Key]
    have hdeg : (if goBase fp = [] ∨ goBase fp = ['.'] ∨ goBase fp = ['/']
        then chars "unknown" else goBase fp) = chars "unknown" := if_pos (by tauto)
    rw [hdeg]
    have hsan : sanitizeFilename (chars "unknown") = chars "unknown" := by decide
    rw [hsan]
    by_cases hp : bucketPrefix = []
    · rw [if_neg (by simp [hp])]
      exact suffix_append_of_suffix timestamp ⟨[], by decide⟩
    · rw [if_pos (by simp [hp])]
      exact suffix_append_of_suffix bucketPrefix (suffix_append_of_suffix ['/']
        (suffix_append_of_suffix timestamp ⟨[], by decide⟩))
  refine ⟨?_, ?_, sanitizeFilename_idem name, ?_, ?_, ?_⟩
  · rw [sanitizeFilename_eq]
    exact replaceDotDot_no_space (replaceSpaces_no_space name)
  · rw [sanitizeFilename_eq]
    intro h
    have := hasDotDot_iff_infix.mpr h
    rw [hasDotDot_replaceDotDot] at this
    cases this
  · exact hkey (chars "") (Or.inl (by decide))
  · exact hkey (chars ".") (Or.inl (by decide))
  · exact hkey (chars "/") (Or.inr (by decide))

/-- Claim C9: the derived storage key is exactly the spec's layout — the
sanitized base filename behind the date partition, with the configured
bucket-prefix segment ahead of the date when present and omitted
otherwise — and in particular an upload of `/uploads/report.txt` always
yields a key ending in `report.txt`. -/
theorem C9_key_layout :
    (∀ bucketPrefix timestamp filePath,
      generateS3Key bucketPrefix timestamp filePath
        = specStorageKey bucketPrefix timestamp filePath)
    ∧ (∀ bucketPrefix timestamp,
      chars "report.txt"
        <:+ generateS3Key bucketPrefix timestamp (chars "/uploads/report.txt")) := by
  constructor
  · intro bucketPrefix timestamp filePath
    simp only [generateS3Key, specStorageKey]
    rw [sanitizeFilename_eq]
    by_cases hp : bucketPrefix = []
    · rw [if_neg (by simp [hp]), if_pos hp]
      simp
    · rw [if_pos (by simp [hp]), if_neg hp]
      simp
  · intro bucketPrefix timestamp
    simp only [generateS3Key]
    have hdeg : (if goBase (chars "/uploads/report.txt") = []
        ∨ goBase (chars "/uploads/report.txt") = ['.']
        ∨ goBase (chars "/uploads/report.txt") = ['/']
        then chars "unknown" else goBase (chars "/uploads/report.txt"))
        = goBase (chars "/uploads/report.txt") := if_neg (by decide)
    rw [hdeg, show sanitizeFilename (goBase (chars "/uploads/report.txt"))
        = chars "report.txt" from by decide]
    by_cases hp : bucketPrefix = []
    · rw [if_neg (by simp [hp])]
      exact suffix_append_of_suffix timestamp ⟨['/'], rfl⟩
    · rw [if_pos (by simp [hp])]
      exact suffix_append_of_suffix bucketPrefix (suffix_append_of_suffix ['/']
        (suffix_append_of_suffix timestamp ⟨['/'], rfl⟩))

/-! ## The storage handoff and the session credential flow -/

/-- The one `PutObject` call `UploadFile` performs: the static credential
pair handed to the storage client's credential provider, the bucket, the
derived key, the payload, and the metadata fields taken from the session. -/
structure PutObjectCall where
  credAccessKeyID : List Char
  credSecretAccessKey : List Char
  bucket : List Char
  key : List Char
  body : List Nat
  metaClientIP : List Char
  metaAccessKeyID : List Char
  metaOriginalPath : List Char
deriving DecidableEq

/-- `S3Uploader.UploadFile`: configures the storage client with a static
credentials provider holding exactly the passed identifier/secret pair,
derives the key, and performs one `PutObject` with the payload and the
metadata (client address, identifier, original virtual path). -/
def UploadFile (bucket bucketPrefix timestamp accessKeyID secretAccessKey clientIP
    filePath : List Char) (data : List Nat) : PutObjectCall :=
  { credAccessKeyID := accessKeyID
    credSecretAccessKey := secretAccessKey
    bucket := bucket
    key := generateS3Key bucketPrefix timestamp filePath
    body := data
    metaClientIP := clientIP
    metaAccessKeyID := accessKeyID
    metaOriginalPath := filePath }

/-- `FileWriter.Close` with the handoff explicit: the first close marks
the writer closed and calls `UploadFile` with the upload's credential
pair, client address, path and accumulated bytes; a later close is a
no-op performing no storage call. -/
def CloseFW (bucket bucketPrefix timestamp : List Char) (fw : FileWriter) :
    FileWriter × Option PutObjectCall :=
  if fw.closed then (fw, none)
  else ({ fw with closed := true },
    some (UploadFile bucket bucketPrefix timestamp fw.upload.accessKey
      fw.upload.secretKey fw.upload.clientIP fw.upload.path fw.upload.data))

/-- One session's storage write, composed exactly as the server wires it:
`handleSFTP` reads the access key and secret out of the permissions
`Authenticate` granted and seeds the session handler with them,
`Filewrite` copies them into the fresh upload state, the writes fill the
buffer, and `Close` hands off through `UploadFile`.  `none` when
authentication fails, the path is rejected, or no storage call happens. -/
def sessionPutCall (required virtualDir bucket bucketPrefix timestamp clientIP
    user password : List Char) (delegate : DelegateResult) (maxFS : Nat)
    (filepath : List Char) (writes : List (List Nat × Nat)) : Option PutObjectCall :=
  match (Authenticate required clientIP user password delegate).1 with
  | .error _ => none
  | .ok perms =>
    match (SessionFilewrite virtualDir (fun _ => none) filepath clientIP
        perms.awsAccessKeyId perms.awsSecretAccessKey).2 with
    | none => none
    | some fw => (CloseFW bucket bucketPrefix timestamp (applyWrites maxFS fw writes)).2

theorem Authenticate_ok_creds {required clientIP user password : List Char}
    {delegate : DelegateResult} {perms : Permissions}
    (h : (Authenticate required clientIP user password delegate).1 = .ok perms) :
    perms.awsAccessKeyId = user ∧ perms.awsSecretAccessKey = password := by
  unfold Authenticate at h
  by_cases he : user = [] ∨ password = []
  · rw [if_pos he] at h
    simp at h
  · rw [if_neg he] at h
    cases delegate with
    | loadConfigError => simp at h
    | getCallerIdentityError => simp at h
    | nilAccount => simp at h
    | account accountID =>
      by_cases hacc : accountID = required
      · simp only [hacc, ne_eq, not_true_eq_false, if_false, ite_self] at h
        have := Except.ok.inj h
        rw [← this]
        exact ⟨rfl, rfl⟩
      · simp [hacc] at h

theorem WriteAt_meta (maxFS : Nat) (fw : FileWriter) (p : List Nat) (off : Nat) :
    (WriteAt maxFS fw p off).1.upload.path = fw.upload.path
    ∧ (WriteAt maxFS fw p off).1.upload.clientIP = fw.upload.clientIP
    ∧ (WriteAt maxFS fw p off).1.upload.accessKey = fw.upload.accessKey
    ∧ (WriteAt maxFS fw p off).1.upload.secretKey = fw.upload.secretKey := by
  by_cases hc : fw.closed
  · simp [WriteAt, hc]
  · by_cases hs : off + p.length > maxFS
    · simp [WriteAt, hc, hs]
    · simp [WriteAt, hc, hs]

theorem applyWrites_meta (maxFS : Nat) (writes : List (List Nat × Nat)) :
    ∀ fw : FileWriter,
      (applyWrites maxFS fw writes).upload.path = fw.upload.path
      ∧ (applyWrites maxFS fw writes).upload.clientIP = fw.upload.clientIP
      ∧ (applyWrites maxFS fw writes).upload.accessKey = fw.upload.accessKey
      ∧ (applyWrites maxFS fw writes).upload.secretKey = fw.upload.secretKey := by
  induction writes with
  | nil => exact fun fw => ⟨rfl, rfl, rfl, rfl⟩
  | cons w ws ih =>
    intro fw
    have h1 := ih (WriteAt maxFS fw w.1 w.2).1
    have h2 := WriteAt_meta maxFS fw w.1 w.2
    exact ⟨h1.1.trans h2.1, h1.2.1.trans h2.2.1, h1.2.2.1.trans h2.2.2.1,
      h1.2.2.2.trans h2.2.2.2⟩

/-- Claim C10: whenever the composed session flow performs a storage
write, the static credential pair handed to the storage client's
credential provider is exactly the identifier and secret the client
presented at login — authorization to write the object is decided by the
store against the client's own credentials. -/
theorem C10_upload_uses_session_credentials
    (required virtualDir bucket bucketPrefix timestamp clientIP user password : List Char)
    (delegate : DelegateResult) (maxFS : Nat) (filepath : List Char)
    (writes : List (List Nat × Nat)) (call : PutObjectCall)
    (h : sessionPutCall required virtualDir bucket bucketPrefix timestamp clientIP user
        password delegate maxFS filepath writes = some call) :
    call.credAccessKeyID = user ∧ call.credSecretAccessKey = password := by
  unfold sessionPutCall at h
  split at h
  · exact absurd h (by simp)
  · rename_i perms hauth
    obtain ⟨hak, hsk⟩ := Authenticate_ok_creds hauth
    split at h
    · exact absurd h (by simp)
    · rename_i fw hfw
      have hfw' : fw = ⟨⟨[], filepath, clientIP, perms.awsAccessKeyId,
          perms.awsSecretAccessKey⟩, false⟩ := by
        unfold SessionFilewrite at hfw
        by_cases hp : isPathAllowed virtualDir filepath
        · rw [if_neg (by simp [hp])] at hfw
          exact (Option.some.inj hfw).symm
        · rw [if_pos (by simpa using hp)] at hfw
          simp at hfw
      subst hfw'
      unfold CloseFW at h
      by_cases hcl : (applyWrites maxFS ⟨⟨[], filepath, clientIP,
          perms.awsAccessKeyId, perms.awsSecretAccessKey⟩, false⟩ writes).closed
      · rw [if_pos hcl] at h
        simp at h
      · rw [if_neg hcl] at h
        have hmeta := applyWrites_meta maxFS writes
          ⟨⟨[], filepath, clientIP, perms.awsAccessKeyId, perms.awsSecretAccessKey⟩, false⟩
        have hcall := Option.some.inj h
        rw [← hcall]
        unfold UploadFile
        constructor
        · rw [hmeta.2.2.1]
          exact hak
        · rw [hmeta.2.2.2]
          exact hsk

/-- Claim C10, witness: a concrete successful session — login as `u`/`p`
against required account `1`, one one-byte write to `/uploads/a`, close —
whose storage call carries exactly `u` and `p` as the static credential
pair. -/
theorem C10_upload_uses_session_credentials_witness :
    sessionPutCall ['1'] (chars "/uploads") ['b'] [] ['d'] ['i'] ['u'] ['p']
      (.account ['1']) 10 (chars "/uploads/a") [([7], 0)]
      = some ⟨['u'], ['p'], ['b'], chars "d/a", [7], ['i'], ['u'], chars "/uploads/a"⟩
    ∧ ((⟨['u'], ['p'], ['b'], chars "d/a", [7], ['i'], ['u'],
        chars "/uploads/a"⟩ : PutObjectCall).credAccessKeyID = ['u']
      ∧ (⟨['u'], ['p'], ['b'], chars "d/a", [7], ['i'], ['u'],
        chars "/uploads/a"⟩ : PutObjectCall).credSecretAccessKey = ['p']) := by
  refine ⟨by decide, ?_⟩
  exact C10_upload_uses_session_credentials ['1'] (chars "/uploads") ['b'] [] ['d']
    ['i'] ['u'] ['p'] (.account ['1']) 10 (chars "/uploads/a") [([7], 0)]
    ⟨['u'], ['p'], ['b'], chars "d/a", [7], ['i'], ['u'], chars "/uploads/a"⟩
    (by decide)

end Sftpgw
